import Mathlib

/-!
Verification of the core subtitle-translation logic of the repository
(src/app.py): the SRT codec (parse_srt, rebuild_srt), the chunker
(chunk_text), the response sanitizer (clean_json_text) and the batch
translation protocol (translate_chunk).

Python strings are modelled as `List Char`; the Unicode-aware character
classes of Python (str.strip, regex \s, regex \d) are modelled on the ASCII
range, which covers every input class the specification discusses.
-/

/-- Python strings, modelled as lists of characters. -/
abbrev Str := List Char

/-- The whitespace class of Python: str.strip() with no argument and the
regex class \s, restricted to ASCII: space, tab, newline, carriage return,
vertical tab, form feed. -/
def pySpace (c : Char) : Bool :=
  c = ' ' || c = '\t' || c = '\n' || c = '\r' || c = '\x0b' || c = '\x0c'

/-- Python text.strip(): drop leading and trailing whitespace. -/
def pyStrip (l : Str) : Str :=
  ((l.dropWhile pySpace).reverse.dropWhile pySpace).reverse

/-- Python s.find(c): index of the first occurrence of a character,
`none` standing for Python result -1. -/
def strFind (c : Char) : Str → Option Nat
  | [] => none
  | a :: as => if a = c then some 0 else (strFind c as).map (· + 1)

/-- Python s.rfind(c): index of the last occurrence of a character,
`none` standing for Python result -1. -/
def strRfind (c : Char) (l : Str) : Option Nat :=
  (strFind c l.reverse).map (fun i => l.length - 1 - i)

/-- Python s.split(newline, 1), last element: everything after the first
newline, or the whole string if it has no newline. -/
def dropFirstLine (l : Str) : Str :=
  match strFind '\n' l with
  | some i => l.drop (i + 1)
  | none => l

/-- Python s.rsplit(newline, 1), first element: everything before the last
newline, or the whole string if it has no newline. -/
def dropLastLine (l : Str) : Str :=
  match strRfind '\n' l with
  | some i => l.take i
  | none => l

/-- The opening curly brace character, code point 123. -/
def braceOpen : Char := Char.ofNat 123

/-- The closing curly brace character, code point 125. -/
def braceClose : Char := Char.ofNat 125

/-- The three-character markdown fence marker (three backticks, code point
96 each), the literal that Python tests with text.startswith in the
sanitizer. -/
def fenceMark : Str := [Char.ofNat 96, Char.ofNat 96, Char.ofNat 96]

/-- Embedding of clean_json_text (src/app.py lines 50-64).  The source
takes the slice from the first opening brace through the last closing
brace inclusive when both text.find and text.rfind succeed; otherwise it
strips the text, removes the first and last line when the stripped text
starts with a triple-backtick fence, and strips again.  The Python slice
from start to end+1 is empty when end+1 is at most start, which truncated
Nat subtraction reproduces.  The function body is pure and total, so the
bare except branch of the source is dead code and has no counterpart
here. -/
def clean_json_text (text : Str) : Str :=
  match strFind braceOpen text, strRfind braceClose text with
  | some s, some e => (text.drop s).take (e + 1 - s)
  | _, _ =>
    let t := pyStrip text
    if fenceMark.isPrefixOf t then pyStrip (dropLastLine (dropFirstLine t)) else pyStrip t

/-- One parsed subtitle block: the dictionary with keys index, time and
text built by parse_srt. -/
structure SrtRec where
  index : Str
  time : Str
  text : Str
deriving DecidableEq, Repr

/-- Embedding of chunk_text (src/app.py lines 31-48): the accumulating
loop body.  `cur` is Python current_chunk, `curLen` is current_length. -/
def chunkGo (chunkSize : Nat) : List SrtRec → List SrtRec → Nat → List (List SrtRec)
  | [], cur, _ => if cur.isEmpty then [] else [cur]
  | item :: rest, cur, curLen =>
    if curLen + item.text.length > chunkSize then
      cur :: chunkGo chunkSize rest [item] item.text.length
    else
      chunkGo chunkSize rest (cur ++ [item]) (curLen + item.text.length)

/-- Embedding of chunk_text (src/app.py lines 31-48): greedy accumulation
of records into batches bounded by chunk_size characters of text. -/
def chunk_text (parsedData : List SrtRec) (chunkSize : Nat) : List (List SrtRec) :=
  chunkGo chunkSize parsedData [] 0


/-- Total text length of a batch, Python current_length. -/
def sumLen (l : List SrtRec) : Nat := (l.map (fun r => r.text.length)).sum

lemma chunkGo_join (cs : Nat) :
    ∀ (data cur : List SrtRec) (n : Nat), (chunkGo cs data cur n).flatten = cur ++ data := by
  intro data
  induction data with
  | nil =>
    intro cur n
    simp only [chunkGo]
    by_cases h : cur.isEmpty
    · simp_all [List.isEmpty_iff]
    · simp_all
  | cons item rest ih =>
    intro cur n
    simp only [chunkGo]
    split
    · simp [ih]
    · simp [ih]

lemma chunkGo_ne_nil (cs : Nat) :
    ∀ (data cur : List SrtRec) (n : Nat), cur ≠ [] →
      ∀ b ∈ chunkGo cs data cur n, b ≠ [] := by
  intro data
  induction data with
  | nil =>
    intro cur n hcur b hb
    simp only [chunkGo] at hb
    rw [if_neg (by simpa [List.isEmpty_iff] using hcur)] at hb
    simp at hb
    simpa [hb]
  | cons item rest ih =>
    intro cur n hcur b hb
    simp only [chunkGo] at hb
    split at hb
    · rcases List.mem_cons.mp hb with h | h
      · simpa [h]
      · exact ih [item] item.text.length (by simp) b h
    · exact ih (cur ++ [item]) _ (by simp) b hb

lemma mem_le_sumLen {r : SrtRec} {l : List SrtRec} (h : r ∈ l) :
    r.text.length ≤ sumLen l := by
  induction l with
  | nil => simp at h
  | cons a as ih =>
    rcases List.mem_cons.mp h with h | h
    · subst h; simp [sumLen]
    · calc r.text.length ≤ sumLen as := ih h
        _ ≤ sumLen (a :: as) := by simp [sumLen]

lemma chunkGo_oversized_alone (cs : Nat) :
    ∀ (data cur : List SrtRec) (n : Nat), n = sumLen cur →
      (∀ r ∈ cur, cs < r.text.length → cur = [r]) →
      ∀ b ∈ chunkGo cs data cur n, ∀ r ∈ b, cs < r.text.length → b = [r] := by
  intro data
  induction data with
  | nil =>
    intro cur n hn hcur b hb
    simp only [chunkGo] at hb
    split at hb
    · simp at hb
    · simp at hb
      simpa [hb] using hcur
  | cons item rest ih =>
    intro cur n hn hcur b hb
    simp only [chunkGo] at hb
    split at hb
    · rcases List.mem_cons.mp hb with h | h
      · subst h; exact hcur
      · exact ih [item] item.text.length (by simp [sumLen]) (by intro r hr _; simp_all) b h
    · rename_i hle
      refine ih (cur ++ [item]) (n + item.text.length) (by simp [sumLen, hn, Nat.add_comm]) ?_ b hb
      intro r hr hbig
      exfalso
      have h1 : r.text.length ≤ sumLen (cur ++ [item]) := mem_le_sumLen hr
      have h2 : sumLen (cur ++ [item]) = n + item.text.length := by
        simp [sumLen, hn, Nat.add_comm]
      omega

/-- Claim C5: for every input record sequence and every chunkSize,
concatenating the records of all batches output by chunk_text, in order,
equals the original record sequence: chunking never reorders, drops, or
duplicates any record. -/
theorem chunk_partition (data : List SrtRec) (cs : Nat) :
    (chunk_text data cs).flatten = data := by
  simpa using chunkGo_join cs data [] 0

/-- Claim C4, counterexample: a single record whose text length (20)
exceeds the chunk size (10) produces an output containing an empty batch,
contradicting the claim that no batch in the output is empty except for
empty input. -/
theorem chunk_empty_batch_counterexample :
    chunk_text [⟨['1'], [], "aaaaaaaaaaaaaaaaaaaa".toList⟩] 10 =
      [[], [⟨['1'], [], "aaaaaaaaaaaaaaaaaaaa".toList⟩]] ∧
    [] ∈ chunk_text [⟨['1'], [], "aaaaaaaaaaaaaaaaaaaa".toList⟩] 10 := by
  constructor
  · decide
  · decide

/-- Claim C4 as amended: when the input is empty or its first record's text
length is within chunkSize, no output batch is empty; moreover (for every
input) any batch containing a record whose text length exceeds chunkSize
consists of exactly that record, so an oversized record is still placed
alone into its own batch and never dropped.  (When the first record is
oversized the source appends one empty batch before it, because the budget
check at src/app.py line 38 fires while current_chunk is still empty.) -/
theorem chunk_no_empty_batch_and_oversized_alone (data : List SrtRec) (cs : Nat) :
    ((∀ r, data.head? = some r → r.text.length ≤ cs) →
      ∀ b ∈ chunk_text data cs, b ≠ []) ∧
    (∀ b ∈ chunk_text data cs, ∀ r ∈ b, cs < r.text.length → b = [r]) := by
  constructor
  · intro hfit b hb
    match data, hb with
    | [], hb => simp [chunk_text, chunkGo] at hb
    | item :: rest, hb =>
      have hfit1 : item.text.length ≤ cs := hfit item rfl
      simp only [chunk_text, chunkGo] at hb
      rw [if_neg (by omega)] at hb
      simp only [List.nil_append, Nat.zero_add] at hb
      exact chunkGo_ne_nil cs rest [item] item.text.length (by simp) b hb
  · intro b hb
    exact chunkGo_oversized_alone cs data [] 0 (by simp [sumLen]) (by simp) b hb

/-- Claim C4, witness instantiation of the amended theorem: a two-record
input whose first record fits the budget, containing an oversized second
record; no batch is empty and the oversized record sits alone. -/
theorem chunk_no_empty_batch_witness :
    (∀ r, [SrtRec.mk ['1'] [] "aaaa".toList,
           SrtRec.mk ['2'] [] "aaaaaaaaaaaaaaaaaaaa".toList].head? = some r →
        r.text.length ≤ 10) ∧
    (∀ b ∈ chunk_text [SrtRec.mk ['1'] [] "aaaa".toList,
           SrtRec.mk ['2'] [] "aaaaaaaaaaaaaaaaaaaa".toList] 10, b ≠ []) ∧
    (∀ b ∈ chunk_text [SrtRec.mk ['1'] [] "aaaa".toList,
           SrtRec.mk ['2'] [] "aaaaaaaaaaaaaaaaaaaa".toList] 10,
       ∀ r ∈ b, 10 < r.text.length → b = [r]) := by
  have h := chunk_no_empty_batch_and_oversized_alone
    [SrtRec.mk ['1'] [] "aaaa".toList, SrtRec.mk ['2'] [] "aaaaaaaaaaaaaaaaaaaa".toList] 10
  exact ⟨by intro r hr; cases hr; decide, h.1 (by intro r hr; cases hr; decide), h.2⟩

lemma strFind_isSome_iff (c : Char) (l : Str) : (strFind c l).isSome ↔ c ∈ l := by
  induction l with
  | nil => simp [strFind]
  | cons a as ih =>
    by_cases h : a = c
    · subst h; simp [strFind]
    · have heq : (strFind c (a :: as)).isSome = (strFind c as).isSome := by
        cases hf : strFind c as <;> simp [strFind, h, hf]
      rw [heq, ih, List.mem_cons]
      constructor
      · exact Or.inr
      · rintro (hc | hc)
        · exact absurd hc.symm h
        · exact hc

lemma strRfind_isSome_iff (c : Char) (l : Str) : (strRfind c l).isSome ↔ c ∈ l := by
  have h := strFind_isSome_iff c l.reverse
  unfold strRfind
  cases hf : strFind c l.reverse <;> simp_all [List.mem_reverse]

lemma dropWhile_head_not (p : Char → Bool) (l : Str) :
    ∀ c, (l.dropWhile p).head? = some c → p c = false := by
  induction l with
  | nil => intro c hc; simp [List.dropWhile] at hc
  | cons a as ih =>
    intro c hc
    by_cases h : p a
    · exact ih c (by simpa [List.dropWhile, h] using hc)
    · simp [List.dropWhile, h] at hc
      simpa [← hc] using h

lemma getLast?_dropWhile (p : Char → Bool) (l : Str) (h : l.dropWhile p ≠ []) :
    (l.dropWhile p).getLast? = l.getLast? := by
  induction l with
  | nil => simp at h
  | cons a as ih =>
    by_cases hp : p a
    · have h' : as.dropWhile p ≠ [] := by simpa [List.dropWhile, hp] using h
      have has : as ≠ [] := by
        intro hnil
        subst hnil
        simp [List.dropWhile] at h'
      rw [List.dropWhile_cons_of_pos hp, ih h']
      cases as with
      | nil => exact absurd rfl has
      | cons b bs => simp [List.getLast?_cons_cons]
    · rw [List.dropWhile_cons_of_neg hp]

lemma pyStrip_no_edge_space (l : Str)
    (hh : ∀ c, l.head? = some c → pySpace c = false)
    (hl : ∀ c, l.getLast? = some c → pySpace c = false) : pyStrip l = l := by
  unfold pyStrip
  have h1 : l.dropWhile pySpace = l := by
    cases l with
    | nil => rfl
    | cons a as => simp [List.dropWhile, hh a rfl]
  rw [h1]
  have h2 : l.reverse.dropWhile pySpace = l.reverse := by
    cases hr : l.reverse with
    | nil => rfl
    | cons a as =>
      have : l.getLast? = some a := by rw [← List.head?_reverse, hr]; rfl
      rw [← hr]
      cases l with
      | nil => rfl
      | cons b bs => simp [hr, List.dropWhile, hl a this]
  rw [h2, List.reverse_reverse]

lemma pyStrip_head_not (l : Str) :
    ∀ c, (pyStrip l).head? = some c → pySpace c = false := by
  intro c hc
  unfold pyStrip at hc
  rw [List.head?_reverse] at hc
  have hne : (l.dropWhile pySpace).reverse.dropWhile pySpace ≠ [] := by
    intro hnil; rw [hnil] at hc; simp at hc
  rw [getLast?_dropWhile _ _ hne, List.getLast?_reverse] at hc
  exact dropWhile_head_not pySpace l c hc

lemma pyStrip_last_not (l : Str) :
    ∀ c, (pyStrip l).getLast? = some c → pySpace c = false := by
  intro c hc
  unfold pyStrip at hc
  rw [List.getLast?_reverse] at hc
  exact dropWhile_head_not pySpace _ c hc

lemma pyStrip_idem (l : Str) : pyStrip (pyStrip l) = pyStrip l :=
  pyStrip_no_edge_space (pyStrip l) (pyStrip_head_not l) (pyStrip_last_not l)

/-- Sanitizer as the claim words it: a piecewise function whose first case
requires both braces present, whose second case requires no braces at all,
and which otherwise returns the trimmed text unchanged. -/
def clean_json_text_claimed (text : Str) : Str :=
  if braceOpen ∈ text ∧ braceClose ∈ text then
    match strFind braceOpen text, strRfind braceClose text with
    | some s, some e => (text.drop s).take (e + 1 - s)
    | _, _ => text
  else if braceOpen ∉ text ∧ braceClose ∉ text then
    let t := pyStrip text
    if fenceMark.isPrefixOf t then pyStrip (dropLastLine (dropFirstLine t)) else t
  else
    pyStrip text

/-- Claim C7, counterexample: on a fenced text that contains an opening
brace but no closing brace, the source still strips the fence (the
brace-pair branch only requires BOTH find calls to succeed before it is
taken; with only one brace present control falls through to the fence
branch), while the claim's piecewise function returns the trimmed text
unchanged because braces were found. -/
theorem clean_json_text_counterexample :
    clean_json_text "\x60\x60\x60\n\x7b\nx\n\x60\x60\x60".toList ≠
      clean_json_text_claimed "\x60\x60\x60\n\x7b\nx\n\x60\x60\x60".toList ∧
    clean_json_text "\x60\x60\x60\n\x7b\nx\n\x60\x60\x60".toList = "\x7b\nx".toList ∧
    clean_json_text_claimed "\x60\x60\x60\n\x7b\nx\n\x60\x60\x60".toList =
      "\x60\x60\x60\n\x7b\nx\n\x60\x60\x60".toList := by
  refine ⟨by decide, by decide, by decide⟩

/-- Claim C7 as amended: the sanitizer returns the inclusive substring from
the first opening brace through the last closing brace whenever the text
contains at least one of each; in every other case (no braces at all, or
only one kind of brace) it strips leading and trailing whitespace, and when
the stripped text starts with a triple-backtick fence it additionally drops
the first and last lines and trims the remainder.  (The original claim sent
one-brace texts to the return-trimmed-unchanged case; the source's fence
branch fires for them too.)  The body is pure and total, so the source's
exception fallback is dead code. -/
theorem clean_json_text_spec (text : Str) :
    (braceOpen ∈ text → braceClose ∈ text →
      ∃ s e, strFind braceOpen text = some s ∧ strRfind braceClose text = some e ∧
        clean_json_text text = (text.drop s).take (e + 1 - s)) ∧
    (¬(braceOpen ∈ text ∧ braceClose ∈ text) →
      (fenceMark.isPrefixOf (pyStrip text) = true →
        clean_json_text text = pyStrip (dropLastLine (dropFirstLine (pyStrip text)))) ∧
      (fenceMark.isPrefixOf (pyStrip text) = false →
        clean_json_text text = pyStrip text)) := by
  constructor
  · intro hopen hclose
    obtain ⟨s, hs⟩ := Option.isSome_iff_exists.mp ((strFind_isSome_iff braceOpen text).mpr hopen)
    obtain ⟨e, he⟩ :=
      Option.isSome_iff_exists.mp ((strRfind_isSome_iff braceClose text).mpr hclose)
    exact ⟨s, e, hs, he, by simp [clean_json_text, hs, he]⟩
  · intro hnot
    have hcase : strFind braceOpen text = none ∨ strRfind braceClose text = none := by
      by_contra hc
      push_neg at hc
      exact hnot ⟨(strFind_isSome_iff braceOpen text).mp (Option.ne_none_iff_isSome.mp hc.1),
        (strRfind_isSome_iff braceClose text).mp (Option.ne_none_iff_isSome.mp hc.2)⟩
    constructor
    · intro hfence
      rcases hcase with h | h
      · simp [clean_json_text, h, hfence]
      · cases hf : strFind braceOpen text <;> simp [clean_json_text, h, hf, hfence]
    · intro hfence
      rcases hcase with h | h
      · simp [clean_json_text, h, hfence, pyStrip_idem]
      · cases hf : strFind braceOpen text <;>
          simp [clean_json_text, h, hf, hfence, pyStrip_idem]

/-- Raw model output of testable property 5 of the specification: prose,
then a fenced JSON block, then more prose. -/
def fencedExample : Str :=
  ("Sure! Here" ++ "'s the result:\n\x60\x60\x60json\n\x7b\"translated_items\":" ++
    "[\x7b\"id\":0,\"text\":\"hi\"\x7d]\x7d\n\x60\x60\x60\nLet me know if needed.").toList

/-- Claim C7, witness: on the fenced example of specification section 8 the
amended theorem applies (both braces present) and the sanitizer yields
exactly the embedded JSON object text. -/
theorem clean_json_text_spec_witness :
    (braceOpen ∈ fencedExample ∧ braceClose ∈ fencedExample) ∧
    (∃ s e, strFind braceOpen fencedExample = some s ∧
      strRfind braceClose fencedExample = some e ∧
      clean_json_text fencedExample = (fencedExample.drop s).take (e + 1 - s)) ∧
    clean_json_text fencedExample =
      "\x7b\"translated_items\":[\x7b\"id\":0,\"text\":\"hi\"\x7d]\x7d".toList :=
  ⟨⟨by decide, by decide⟩,
    (clean_json_text_spec fencedExample).1 (by decide) (by decide), by decide⟩

/-- JSON values as produced by json.loads.  Numbers are modelled as
integers: the protocol only ever inspects the integer id field, and no
claim involves floating point. -/
inductive Json where
  | null
  | bool (b : Bool)
  | num (n : Int)
  | str (s : Str)
  | arr (xs : List Json)
  | obj (fields : List (Str × Json))

/-- A JSON object body: the ordered key/value bindings of a Python dict.
Objects produced by json.loads have unique keys (a duplicate key in the
source text keeps only the last binding). -/
abbrev JObj := List (Str × Json)

/-- Python dict lookup d.get(k): the binding for the key, if any. -/
def jLookup (fields : JObj) (k : Str) : Option Json :=
  match fields with
  | [] => none
  | (k2, v) :: rest => if k2 = k then some v else jLookup rest k

/-- Diagnostics status: Unknown at creation, Success, or an Error string
(modelled without the message text, which no claim inspects). -/
inductive TStatus where
  | unknown
  | success
  | errored
deriving DecidableEq

/-- The fields of the debug_info dictionary that the claims inspect.
input_json, raw_response, duration, context_used and reasoning_mode are
transcript and wall-clock fields; no claim depends on them and they are
omitted from the model. -/
structure DebugInfo where
  status : TStatus
  attempts : Nat
deriving DecidableEq

/-- The key translated_items. -/
def itemsKeyS : Str := "translated_items".toList

/-- The key id. -/
def idKeyS : Str := "id".toList

/-- The key text. -/
def textKeyS : Str := "text".toList

/-- Locating the item array (src/app.py lines 183-186): use
translated_items when present, else the first value of the parsed object.
In Python every non-dict result_json raises on this code path (TypeError
from the membership test or indexing, AttributeError from .values(),
IndexError from [0] on an empty dict), landing in the except handler;
those cases are the error outcome here. -/
def extractItems : Json → Except Unit Json
  | Json.obj fields =>
    match jLookup fields itemsKeyS with
    | some v => Except.ok v
    | none =>
      match fields with
      | [] => Except.error ()
      | (_, v) :: _ => Except.ok v
  | _ => Except.error ()

/-- The located value must be a Python list for items.sort to exist;
anything else raises AttributeError in the source. -/
def asArr : Json → Except Unit (List Json)
  | Json.arr xs => Except.ok xs
  | _ => Except.error ()

/-- Every element must be a dict: the sort key lambda calls x.get, which
raises AttributeError on any non-dict element. -/
def asObjs : List Json → Except Unit (List JObj)
  | [] => Except.ok []
  | Json.obj f :: rest => (asObjs rest).map (fun fs => f :: fs)
  | _ :: _ => Except.error ()

/-- The id field of an item, x.get(id). -/
def idVal (o : JObj) : Option Json := jLookup o idKeyS

/-- Modelling choice for the sort key x.get(id, -1): an id value that is
not an integer is treated as a failed attempt.  In Python, mixed key types
raise TypeError inside items.sort (caught by the handler); a homogeneous
list of non-integer keys would sort without error, but such items can
never satisfy item.get(id) == i for any integer position i, so the
returned text list is identical either way and only the Diagnostics of
that corner case could differ. -/
def idOk (o : JObj) : Bool :=
  match idVal o with
  | some (Json.num _) => true
  | some _ => false
  | none => true

/-- The integer sort key x.get(id, -1). -/
def sortKeyOf (o : JObj) : Int :=
  match idVal o with
  | some (Json.num n) => n
  | _ => -1

/-- Stable insertion by sort key: an element is placed before the first
element whose key is not smaller, so elements with equal keys keep their
original relative order, as Python's stable list.sort guarantees. -/
def insertById (a : JObj) : List JObj → List JObj
  | [] => [a]
  | b :: bs => if sortKeyOf b < sortKeyOf a then b :: insertById a bs else a :: b :: bs

/-- Stable sort by id, items.sort(key=lambda x: x.get(id, -1)). -/
def sortById : List JObj → List JObj
  | [] => []
  | a :: rest => insertById a (sortById rest)

/-- The test item.get(id) == i of the reconciliation scan: true exactly
when the id field is present and is the integer i. -/
def isId (i : Int) (o : JObj) : Bool :=
  match idVal o with
  | some (Json.num n) => n = i
  | _ => false

/-- The appended value item.get(text, empty string): the raw text field
value, whatever its JSON type, defaulting to the empty string. -/
def textVal (o : JObj) : Json :=
  match jLookup o textKeyS with
  | some v => v
  | none => Json.str []

/-- The reconciliation loop (src/app.py lines 191-199): for each position,
the first item whose id equals the position supplies its text field,
otherwise the original input text passes through.  Input texts enter the
output as string values. -/
def reconcile (items : List JObj) : Int → List Str → List Json
  | _, [] => []
  | i, t :: ts =>
    (match items.find? (isId i) with
     | some o => textVal o
     | none => Json.str t) :: reconcile items (i + 1) ts

/-- The post-parse pipeline of one attempt applied to one generation
outcome.  The generation call, the response.text access, the sanitizer
and json.loads are modelled together as an oracle outcome: either a
raised-or-unparseable failure or a parsed JSON value.  (The sanitizer
itself is verified separately at the text level as clean_json_text.) -/
def extractedObjs (resp : Except Unit Json) : Option (List JObj) :=
  match resp with
  | Except.error _ => none
  | Except.ok j =>
    match extractItems j with
    | Except.error _ => none
    | Except.ok v =>
      match asArr v with
      | Except.error _ => none
      | Except.ok xs =>
        match asObjs xs with
        | Except.error _ => none
        | Except.ok objs => some objs

/-- One full try body of translate_chunk: `none` means the except handler
ran.  The final length re-check of the source (raise ValueError on
mismatch) is kept even though reconciliation always preserves length. -/
def attemptOnce (texts : List Str) (resp : Except Unit Json) : Option (List Json) :=
  match extractedObjs resp with
  | none => none
  | some objs =>
    if objs.all idOk then
      if (reconcile (sortById objs) 0 texts).length = texts.length then
        some (reconcile (sortById objs) 0 texts)
      else none
    else none

/-- Embedding of translate_chunk (src/app.py lines 96-215).  The retry
loop for attempt in range(max_retries + 1) with max_retries = 1 is
unrolled into its two iterations; `gen n` is the outcome of the
generation-and-parse pipeline on attempt n.  The returned triple is
(translated_list, debug_info, sleeps): `sleeps` records the arguments of
the time.sleep calls executed between attempts, so the fixed backoff is
part of the model.  On total failure the source returns text_list, the
original input strings. -/
def translate_chunk (texts : List Str) (gen : Nat → Except Unit Json) :
    List Json × DebugInfo × List Nat :=
  match attemptOnce texts (gen 0) with
  | some out => (out, ⟨TStatus.success, 1⟩, [])
  | none =>
    match attemptOnce texts (gen 1) with
    | some out => (out, ⟨TStatus.success, 2⟩, [1])
    | none => (texts.map Json.str, ⟨TStatus.errored, 2⟩, [1])

lemma reconcile_length (items : List JObj) :
    ∀ (i : Int) (ts : List Str), (reconcile items i ts).length = ts.length := by
  intro i ts
  induction ts generalizing i with
  | nil => rfl
  | cons t ts ih => simp [reconcile, ih]

lemma attemptOnce_some_eq {texts : List Str} {r : Except Unit Json} {out : List Json}
    (h : attemptOnce texts r = some out) :
    ∃ objs, extractedObjs r = some objs ∧ objs.all idOk = true ∧
      out = reconcile (sortById objs) 0 texts := by
  unfold attemptOnce at h
  split at h
  · exact absurd h (by simp)
  · rename_i objs heq
    split at h
    · rename_i hok
      split at h
      · cases h
        exact ⟨objs, heq, hok, rfl⟩
      · exact absurd h (by simp)
    · exact absurd h (by simp)

lemma attemptOnce_length {texts : List Str} {r : Except Unit Json} {out : List Json}
    (h : attemptOnce texts r = some out) : out.length = texts.length := by
  obtain ⟨objs, _, _, hout⟩ := attemptOnce_some_eq h
  rw [hout, reconcile_length]

lemma translate_chunk_length (texts : List Str) (gen : Nat → Except Unit Json) :
    (translate_chunk texts gen).1.length = texts.length := by
  unfold translate_chunk
  cases h0 : attemptOnce texts (gen 0) with
  | some out => exact attemptOnce_length h0
  | none =>
    cases h1 : attemptOnce texts (gen 1) with
    | some out => exact attemptOnce_length h1
    | none => simp

lemma mem_insertById {x a : JObj} {m : List JObj} :
    x ∈ insertById a m ↔ x = a ∨ x ∈ m := by
  induction m with
  | nil => simp [insertById]
  | cons b bs ih =>
    unfold insertById
    by_cases h : sortKeyOf b < sortKeyOf a
    · rw [if_pos h]
      simp [ih]
      tauto
    · rw [if_neg h]
      simp

lemma mem_sortById {x : JObj} {l : List JObj} : x ∈ sortById l ↔ x ∈ l := by
  induction l with
  | nil => simp [sortById]
  | cons a rest ih => simp [sortById, mem_insertById, ih]

lemma reconcile_mem {items : List JObj} {e : Json} :
    ∀ {i : Int} {ts : List Str}, e ∈ reconcile items i ts →
      (∃ o ∈ items, e = textVal o) ∨ ∃ t ∈ ts, e = Json.str t := by
  intro i ts
  induction ts generalizing i with
  | nil => intro h; simp [reconcile] at h
  | cons t ts ih =>
    intro h
    rcases List.mem_cons.mp h with h | h
    · cases hf : items.find? (isId i) with
      | some o =>
        rw [hf] at h
        exact Or.inl ⟨o, List.mem_of_find?_eq_some hf, h⟩
      | none =>
        rw [hf] at h
        exact Or.inr ⟨t, List.mem_cons_self t ts, h⟩
    · rcases ih h with h | ⟨t2, ht2, he⟩
      · exact Or.inl h
      · exact Or.inr ⟨t2, List.mem_cons_of_mem t ht2, he⟩

/-- Whether every item carried by a generation outcome has a string (or
absent) text field. -/
def strTexts (objs : List JObj) : Bool :=
  objs.all (fun o => match textVal o with | Json.str _ => true | _ => false)

/-- Claim C1, counterexample: a perfectly valid JSON response whose text
field holds the number 42 is passed through into the output list as-is, so
translate_chunk returns one element that is not a string, refuting the
claim that the result is a list of K strings for every response
behavior. -/
theorem translate_chunk_nonstring_counterexample :
    (translate_chunk ["a".toList]
        (fun _ => Except.ok (Json.obj [(itemsKeyS,
          Json.arr [Json.obj [(idKeyS, Json.num 0), (textKeyS, Json.num 42)]])]))).1 =
      [Json.num 42] ∧
    (∀ s : Str, Json.num 42 ≠ Json.str s) ∧
    (translate_chunk ["a".toList]
        (fun _ => Except.ok (Json.obj [(itemsKeyS,
          Json.arr [Json.obj [(idKeyS, Json.num 0), (textKeyS, Json.num 42)]])]))).1.length = 1 :=
  ⟨rfl, fun _ h => Json.noConfusion h, rfl⟩

/-- Claim C1 as amended: for every input list of K texts and every
behavior of the generation-and-parse oracle, translate_chunk returns
normally (it is a total function: every exception of the source is caught
by the bare except handler) with a translated list of exactly K elements;
and these elements are all strings whenever every text field the response
carries is a string (in particular on every exception, malformed-response
and passthrough path) -- a non-string text value in an otherwise valid
response is the one case passed through unconverted. -/
theorem translate_chunk_cardinality (texts : List Str) (gen : Nat → Except Unit Json) :
    (translate_chunk texts gen).1.length = texts.length ∧
    ((∀ objs, extractedObjs (gen 0) = some objs → strTexts objs = true) →
      (∀ objs, extractedObjs (gen 1) = some objs → strTexts objs = true) →
      ∀ e ∈ (translate_chunk texts gen).1, ∃ s : Str, e = Json.str s) := by
  constructor
  · exact translate_chunk_length texts gen
  · intro h0 h1 e he
    have key : ∀ (r : Except Unit Json) (out : List Json),
        (∀ objs, extractedObjs r = some objs → strTexts objs = true) →
        attemptOnce texts r = some out → e ∈ out → ∃ s : Str, e = Json.str s := by
      intro r out hr hat hmem
      obtain ⟨objs, hext, hok, hout⟩ := attemptOnce_some_eq hat
      subst hout
      rcases reconcile_mem hmem with ⟨o, ho, heq⟩ | ⟨t, _, heq⟩
      · have hos : o ∈ objs := mem_sortById.mp ho
        have hstr := List.all_eq_true.mp (hr objs hext) o hos
        cases htv : textVal o with
        | str s => exact ⟨s, heq.trans htv⟩
        | null => rw [htv] at hstr; simp at hstr
        | bool b => rw [htv] at hstr; simp at hstr
        | num n => rw [htv] at hstr; simp at hstr
        | arr xs => rw [htv] at hstr; simp at hstr
        | obj f => rw [htv] at hstr; simp at hstr
      · exact ⟨t, heq⟩
    unfold translate_chunk at he
    cases h0' : attemptOnce texts (gen 0) with
    | some out =>
      rw [h0'] at he
      exact key (gen 0) out h0 h0' he
    | none =>
      rw [h0'] at he
      cases h1' : attemptOnce texts (gen 1) with
      | some out =>
        rw [h1'] at he
        exact key (gen 1) out h1 h1' he
      | none =>
        rw [h1'] at he
        simp only at he
        rcases List.mem_map.mp he with ⟨t, _, heq⟩
        exact ⟨t, heq.symm⟩

/-- A generation oracle whose items all carry string text fields, for the
cardinality witness. -/
def genC1w : Nat → Except Unit Json :=
  fun _ => Except.ok (Json.obj [(itemsKeyS,
    Json.arr [Json.obj [(idKeyS, Json.num 0), (textKeyS, Json.str "X".toList)]])])

/-- Claim C1, witness: the amended cardinality theorem applied to a
one-element batch and a well-typed response. -/
theorem translate_chunk_cardinality_witness :
    (translate_chunk ["x".toList] genC1w).1.length = 1 ∧
    (∀ objs, extractedObjs (genC1w 0) = some objs → strTexts objs = true) ∧
    (∀ objs, extractedObjs (genC1w 1) = some objs → strTexts objs = true) ∧
    ∀ e ∈ (translate_chunk ["x".toList] genC1w).1, ∃ s : Str, e = Json.str s := by
  have hty : ∀ n objs, extractedObjs (genC1w n) = some objs → strTexts objs = true := by
    intro n objs heq
    have hv : extractedObjs (genC1w n) =
        some [[(idKeyS, Json.num 0), (textKeyS, Json.str "X".toList)]] := rfl
    rw [hv] at heq
    cases heq
    rfl
  have h := translate_chunk_cardinality ["x".toList] genC1w
  exact ⟨h.1, hty 0, hty 1, h.2 (hty 0) (hty 1)⟩

/-- Claim C3: if every attempt's generation outcome is a failure, the
source runs exactly two attempts, sleeps exactly once for one second
between them, and returns the original input texts unchanged with an
error status and attempt count 2. -/
theorem translate_chunk_retry_exhaustion (texts : List Str) (gen : Nat → Except Unit Json)
    (h : ∀ n, gen n = Except.error ()) :
    translate_chunk texts gen =
      (texts.map Json.str, ⟨TStatus.errored, 2⟩, [1]) := by
  unfold translate_chunk
  have h0 : attemptOnce texts (gen 0) = none := by rw [h 0]; rfl
  have h1 : attemptOnce texts (gen 1) = none := by rw [h 1]; rfl
  rw [h0, h1]

/-- The always-raising generation oracle of testable property 6. -/
def genC3w : Nat → Except Unit Json := fun _ => Except.error ()

/-- Claim C3, witness: the two-element batch of testable property 6. -/
theorem translate_chunk_retry_exhaustion_witness :
    (∀ n, genC3w n = Except.error ()) ∧
    translate_chunk ["x".toList, "y".toList] genC3w =
      ([Json.str "x".toList, Json.str "y".toList], ⟨TStatus.errored, 2⟩, [1]) :=
  ⟨fun _ => rfl,
    (translate_chunk_retry_exhaustion ["x".toList, "y".toList] genC3w (fun _ => rfl)).trans rfl⟩

/-- An always-failing oracle, to witness that translate_chunk on an empty
batch still consults the generation call. -/
def genC6fail : Nat → Except Unit Json := fun _ => Except.error ()

/-- An oracle returning a valid empty item array. -/
def genC6ok : Nat → Except Unit Json :=
  fun _ => Except.ok (Json.obj [(itemsKeyS, Json.arr [])])

/-- Claim C6, counterexample: on the empty batch the source does NOT
return before the generation call; the call is issued and its outcome is
observable in the Diagnostics.  With an always-raising oracle the result
records two attempts, an error status and a one-second sleep, while with
a valid-response oracle it records one successful attempt, so the full
result is not independent of the generation call's behavior.  (The
translated list itself is the empty list in both cases.) -/
theorem translate_chunk_empty_input_counterexample :
    (translate_chunk [] genC6fail).1 = [] ∧
    (translate_chunk [] genC6ok).1 = [] ∧
    (translate_chunk [] genC6fail).2.1 = ⟨TStatus.errored, 2⟩ ∧
    (translate_chunk [] genC6ok).2.1 = ⟨TStatus.success, 1⟩ ∧
    (translate_chunk [] genC6fail).2.2 = [1] ∧
    translate_chunk [] genC6fail ≠ translate_chunk [] genC6ok := by
  refine ⟨rfl, rfl, rfl, rfl, rfl, ?_⟩
  intro h
  exact absurd (congrArg (fun p => p.2.1.attempts) h) (by decide)

/-- Claim C6 as amended: on an empty batch the translated list returned by
translate_chunk is the empty sequence for every behavior of the generation
call; but the generation call IS issued (there is no early return in the
source), so the Diagnostics and the sleep trace still depend on the
call's behavior. -/
theorem translate_chunk_empty_input (gen : Nat → Except Unit Json) :
    (translate_chunk [] gen).1 = [] := by
  have h := translate_chunk_length [] gen
  exact List.eq_nil_of_length_eq_zero h

lemma reconcile_getElem_found {items : List JObj} {o : JObj} :
    ∀ {ts : List Str} {i0 : Int} {j : Nat}, j < ts.length →
      items.find? (isId (i0 + j)) = some o →
      (reconcile items i0 ts)[j]? = some (textVal o) := by
  intro ts
  induction ts with
  | nil => intro i0 j hj _; simp at hj
  | cons t ts ih =>
    intro i0 j hj hfind
    cases j with
    | zero =>
      have h0 : i0 + ((0 : Nat) : Int) = i0 := by simp
      rw [h0] at hfind
      simp [reconcile, hfind]
    | succ j =>
      have hj' : j < ts.length := by simpa using hj
      have harith : i0 + ((j + 1 : Nat) : Int) = (i0 + 1) + (j : Nat) := by push_cast; ring
      rw [harith] at hfind
      simpa [reconcile] using ih hj' hfind

lemma reconcile_getElem_missing {items : List JObj} :
    ∀ {ts : List Str} {i0 : Int} {j : Nat}, j < ts.length →
      items.find? (isId (i0 + j)) = none →
      (reconcile items i0 ts)[j]? = (ts[j]?).map Json.str := by
  intro ts
  induction ts with
  | nil => intro i0 j hj _; simp at hj
  | cons t ts ih =>
    intro i0 j hj hfind
    cases j with
    | zero =>
      have h0 : i0 + ((0 : Nat) : Int) = i0 := by simp
      rw [h0] at hfind
      simp [reconcile, hfind]
    | succ j =>
      have hj' : j < ts.length := by simpa using hj
      have harith : i0 + ((j + 1 : Nat) : Int) = (i0 + 1) + (j : Nat) := by push_cast; ring
      rw [harith] at hfind
      simpa [reconcile] using ih hj' hfind

lemma attemptOnce_of_extracted {texts : List Str} {r : Except Unit Json} {objs : List JObj}
    (hext : extractedObjs r = some objs) (hok : objs.all idOk = true) :
    attemptOnce texts r = some (reconcile (sortById objs) 0 texts) := by
  unfold attemptOnce
  rw [hext]
  simp [hok, reconcile_length]

lemma translate_chunk_first_success {texts : List Str} {gen : Nat → Except Unit Json}
    {objs : List JObj}
    (hext : extractedObjs (gen 0) = some objs) (hok : objs.all idOk = true) :
    (translate_chunk texts gen).1 = reconcile (sortById objs) 0 texts := by
  unfold translate_chunk
  rw [attemptOnce_of_extracted hext hok]

lemma isId_sortKey {i : Int} {o : JObj} (h : isId i o = true) : sortKeyOf o = i := by
  unfold isId at h
  unfold sortKeyOf
  cases hv : idVal o with
  | none => rw [hv] at h; simp at h
  | some v =>
    rw [hv] at h
    cases v with
    | num n => simpa using h
    | null => simp at h
    | bool b => simp at h
    | str s => simp at h
    | arr xs => simp at h
    | obj f => simp at h

lemma find?_via_filter {α : Type} (p : α → Bool) (l : List α) :
    l.find? p = (l.filter p).head? := by
  induction l with
  | nil => rfl
  | cons a as ih =>
    by_cases h : p a
    · rw [List.find?_cons_of_pos _ h, List.filter_cons, if_pos h]
      rfl
    · rw [List.find?_cons_of_neg _ h, List.filter_cons, if_neg h, ih]

lemma filter_insertById_neg {p : JObj → Bool} {a : JObj} (ha : p a = false) :
    ∀ m : List JObj, (insertById a m).filter p = m.filter p := by
  intro m
  induction m with
  | nil => simp [insertById, ha]
  | cons b bs ih =>
    unfold insertById
    by_cases h : sortKeyOf b < sortKeyOf a
    · rw [if_pos h]
      by_cases hb : p b <;> simp [List.filter_cons, hb, ih]
    · rw [if_neg h]
      simp [List.filter_cons, ha]

lemma filter_insertById_pos {p : JObj → Bool} {a : JObj} (ha : p a = true)
    (hkey : ∀ b, p b = true → sortKeyOf b = sortKeyOf a) :
    ∀ m : List JObj, (insertById a m).filter p = a :: m.filter p := by
  intro m
  induction m with
  | nil => simp [insertById, ha]
  | cons b bs ih =>
    unfold insertById
    by_cases h : sortKeyOf b < sortKeyOf a
    · rw [if_pos h]
      have hb : p b = false := by
        by_contra hb
        have := hkey b (by simpa using hb)
        omega
      simp [List.filter_cons, hb, ih]
    · rw [if_neg h]
      simp [List.filter_cons, ha]

lemma filter_sortById {p : JObj → Bool} {k : Int}
    (hkey : ∀ o, p o = true → sortKeyOf o = k) :
    ∀ l : List JObj, (sortById l).filter p = l.filter p := by
  intro l
  induction l with
  | nil => rfl
  | cons a rest ih =>
    unfold sortById
    by_cases ha : p a
    · have hkey2 : ∀ b, p b = true → sortKeyOf b = sortKeyOf a := by
        intro b hb
        rw [hkey b hb, hkey a ha]
      rw [filter_insertById_pos ha hkey2, ih, List.filter_cons, if_pos ha]
    · rw [filter_insertById_neg (by simpa using ha), ih, List.filter_cons,
        if_neg (by simpa using ha)]

lemma find?_sortById {i : Int} (l : List JObj) :
    (sortById l).find? (isId i) = l.find? (isId i) := by
  rw [find?_via_filter, find?_via_filter,
    filter_sortById (fun o ho => isId_sortKey ho) l]

/-- The response of testable property 4: items for ids 2 and 0 (in that
order), id 1 missing. -/
def genC2resp : Nat → Except Unit Json :=
  fun _ => Except.ok (Json.obj [(itemsKeyS, Json.arr
    [Json.obj [(idKeyS, Json.num 2), (textKeyS, Json.str "C".toList)],
     Json.obj [(idKeyS, Json.num 0), (textKeyS, Json.str "A".toList)]])])

/-- The item objects carried by genC2resp. -/
def c2objs : List JObj :=
  [[(idKeyS, Json.num 2), (textKeyS, Json.str "C".toList)],
   [(idKeyS, Json.num 0), (textKeyS, Json.str "A".toList)]]

/-- Claim C2: when the first attempt's response parses into an item array
of objects with well-typed ids, the output at each position i within the
batch is the text field of an item whose id equals i (the text field
defaulting to the empty string when absent is built into textVal), and is
the original input text at position i when no item has id i.  In
particular, on input a b c with items for ids 2 and 0 only, the result is
A b C. -/
theorem translate_chunk_reconciliation :
    (∀ (texts : List Str) (gen : Nat → Except Unit Json) (objs : List JObj),
      extractedObjs (gen 0) = some objs → objs.all idOk = true →
      ∀ i : Nat, i < texts.length →
        ((∃ o ∈ objs, isId (i : Int) o = true) →
          ∃ o ∈ objs, isId (i : Int) o = true ∧
            (translate_chunk texts gen).1[i]? = some (textVal o)) ∧
        ((∀ o ∈ objs, isId (i : Int) o = false) →
          (translate_chunk texts gen).1[i]? = (texts[i]?).map Json.str)) ∧
    (translate_chunk ["a".toList, "b".toList, "c".toList] genC2resp).1 =
      [Json.str "A".toList, Json.str "b".toList, Json.str "C".toList] := by
  constructor
  · intro texts gen objs hext hok i hi
    have htr := @translate_chunk_first_success texts gen objs hext hok
    have h0 : (0 : Int) + (i : Nat) = (i : Int) := by simp
    constructor
    · rintro ⟨o, ho, hid⟩
      have hsome : ((sortById objs).find? (isId (i : Int))).isSome :=
        List.find?_isSome.mpr ⟨o, mem_sortById.mpr ho, hid⟩
      obtain ⟨o', hfind⟩ := Option.isSome_iff_exists.mp hsome
      refine ⟨o', mem_sortById.mp (List.mem_of_find?_eq_some hfind),
        List.find?_some hfind, ?_⟩
      rw [htr]
      exact reconcile_getElem_found hi (by rw [h0]; exact hfind)
    · intro hnone
      have hfindn : (sortById objs).find? (isId (i : Int)) = none :=
        List.find?_eq_none.mpr (fun o ho => by simp [hnone o (mem_sortById.mp ho)])
      rw [htr]
      exact reconcile_getElem_missing hi (by rw [h0]; exact hfindn)
  · rfl

/-- Claim C2, witness: the reconciliation theorem applied at position 1 of
the section-8 example, where id 1 is missing and the original text passes
through. -/
theorem translate_chunk_reconciliation_witness :
    extractedObjs (genC2resp 0) = some c2objs ∧
    c2objs.all idOk = true ∧
    (∀ o ∈ c2objs, isId (1 : Int) o = false) ∧
    (translate_chunk ["a".toList, "b".toList, "c".toList] genC2resp).1[1]? =
      ((["a".toList, "b".toList, "c".toList] : List Str)[1]?).map Json.str := by
  have h4 : ∀ o ∈ c2objs, isId (1 : Int) o = false := by decide
  exact ⟨rfl, rfl, h4,
    (translate_chunk_reconciliation.1 ["a".toList, "b".toList, "c".toList] genC2resp
      c2objs rfl rfl 1 (by decide)).2 h4⟩

/-- A response carrying two items with the same id 0, in response order
first then second. -/
def genC10resp : Nat → Except Unit Json :=
  fun _ => Except.ok (Json.obj [(itemsKeyS, Json.arr
    [Json.obj [(idKeyS, Json.num 0), (textKeyS, Json.str "first".toList)],
     Json.obj [(idKeyS, Json.num 0), (textKeyS, Json.str "second".toList)]])])

/-- The item objects carried by genC10resp. -/
def c10objs : List JObj :=
  [[(idKeyS, Json.num 0), (textKeyS, Json.str "first".toList)],
   [(idKeyS, Json.num 0), (textKeyS, Json.str "second".toList)]]

/-- Claim C10: when the first attempt succeeds on well-typed items, the
output at position i is the text of the FIRST item in response order whose
id equals i; since the sort of the source is Python's stable list.sort
(modelled by stable insertion), the earliest duplicate in response order
is also the first entry with that id after the sort, and later duplicates
have no effect.  The conclusion scans the UNSORTED response-order list. -/
theorem translate_chunk_duplicate_ids (texts : List Str) (gen : Nat → Except Unit Json)
    (objs : List JObj)
    (hext : extractedObjs (gen 0) = some objs) (hok : objs.all idOk = true) :
    ∀ i : Nat, i < texts.length → ∀ o : JObj,
      objs.find? (isId (i : Int)) = some o →
      (translate_chunk texts gen).1[i]? = some (textVal o) := by
  intro i hi o hfind
  have htr := @translate_chunk_first_success texts gen objs hext hok
  rw [htr]
  have h0 : (0 : Int) + (i : Nat) = (i : Int) := by simp
  refine reconcile_getElem_found hi ?_
  rw [h0, find?_sortById]
  exact hfind

/-- Claim C10, witness: with two items both carrying id 0, the output
takes the text of the one that appears first in response order. -/
theorem translate_chunk_duplicate_ids_witness :
    extractedObjs (genC10resp 0) = some c10objs ∧
    c10objs.all idOk = true ∧
    c10objs.find? (isId (0 : Int)) =
      some [(idKeyS, Json.num 0), (textKeyS, Json.str "first".toList)] ∧
    (translate_chunk ["z".toList] genC10resp).1[0]? =
      some (textVal [(idKeyS, Json.num 0), (textKeyS, Json.str "first".toList)]) ∧
    textVal [(idKeyS, Json.num 0), (textKeyS, Json.str "first".toList)] =
      Json.str "first".toList :=
  ⟨rfl, rfl, rfl,
    translate_chunk_duplicate_ids ["z".toList] genC10resp c10objs rfl rfl 0 (by decide)
      [(idKeyS, Json.num 0), (textKeyS, Json.str "first".toList)] rfl, rfl⟩

/-! Embedding of parse_srt (src/app.py lines 18-29).  The source applies
re.findall with the pattern

  (digits+) ws* nl (timestamp ws* arrow ws* timestamp) ws* nl
  (lazy any*) lookahead( nl digits+ ws* nl | end-of-input )

where digits+ is one or more decimal digits, ws* is any whitespace run
(which may itself contain newlines), timestamp is dd:dd:dd,ddd, arrow is
the three characters dash dash greater, the lazy group matches any
characters including newlines as few as possible, and the lookahead is
zero-width.  re.MULTILINE only affects caret and dollar, which the
pattern does not use.  The pattern is hand-compiled below into explicit
matching functions; backtracking alternatives of each quantifier are
materialised as candidate lists in the engine's priority order (greedy:
longest first; lazy: shortest first), and scanning tries each start
position left to right, resuming after the end of each match exactly as
re.findall does. -/

/-- Candidate (consumed, rest) splits for the greedy atom digits+, longest
run first, at least one digit. -/
def digitSplits (l : Str) : List (Str × Str) :=
  ((List.range (l.takeWhile Char.isDigit).length).reverse.map (fun j => j + 1)).map
    (fun j => (l.take j, l.drop j))

/-- Candidate rests after consuming the atoms ws* then one newline, in
backtracking priority order: the greedy longest whitespace run first.
A candidate consumes j whitespace characters and then one newline. -/
def wsNlSplits (l : Str) : List Str :=
  (List.range ((l.takeWhile pySpace).length + 1)).reverse.filterMap
    (fun j => match l.drop j with
      | [] => none
      | c :: rest => if c = '\n' then some rest else none)

/-- The fixed-shape atom dd:dd:dd,ddd. -/
def matchTimestamp : Str → Option (Str × Str)
  | d1 :: d2 :: c1 :: d3 :: d4 :: c2 :: d5 :: d6 :: c3 :: d7 :: d8 :: d9 :: rest =>
    if d1.isDigit && d2.isDigit && (c1 == ':') && d3.isDigit && d4.isDigit &&
        (c2 == ':') && d5.isDigit && d6.isDigit && (c3 == ',') && d7.isDigit &&
        d8.isDigit && d9.isDigit then
      some ([d1, d2, c1, d3, d4, c2, d5, d6, c3, d7, d8, d9], rest)
    else none
  | _ => none

/-- The time-range group: timestamp ws* arrow ws* timestamp, returning the
matched substring verbatim (the capture) and the rest.  The two inner ws*
runs are deterministic: a shorter-than-maximal whitespace munch leaves a
whitespace character where the arrow or a digit is required. -/
def matchTime (l : Str) : Option (Str × Str) :=
  match matchTimestamp l with
  | none => none
  | some (ts1, r1) =>
    match r1.dropWhile pySpace with
    | '-' :: '-' :: '>' :: r3 =>
      match matchTimestamp (r3.dropWhile pySpace) with
      | some (ts2, r5) =>
        some (ts1 ++ r1.takeWhile pySpace ++ '-' :: '-' :: '>' ::
          (r3.takeWhile pySpace ++ ts2), r5)
      | none => none
    | _ => none

/-- The zero-width lookahead: end of input, or one newline, then a
nonempty digit run, then ws* then one newline.  After a maximal digit run
the next character is not a digit, so the only freedom left is how much
whitespace ws* eats before the required newline; since a newline is
itself whitespace, the alternative succeeds exactly when the leading
whitespace run after the digits contains a newline. -/
def lookaheadOk : Str → Bool
  | [] => true
  | c :: rest =>
    if c = '\n' then
      let ds := rest.takeWhile Char.isDigit
      !ds.isEmpty && ((rest.drop ds.length).takeWhile pySpace).contains '\n'
    else false

/-- The lazy group with its lookahead: consume as few characters as
possible until the lookahead holds.  Always succeeds, because the
lookahead holds at end of input. -/
def lazyFind : Str → Str × Str
  | [] => ([], [])
  | c :: rest =>
    if lookaheadOk (c :: rest) then ([], c :: rest)
    else ((lazyFind rest).1.cons c, (lazyFind rest).2)

/-- First success of f over a candidate list: the backtracking order of
the regex engine. -/
def firstSome {α β : Type} (f : α → Option β) : List α → Option β
  | [] => none
  | a :: as =>
    match f a with
    | some b => some b
    | none => firstSome f as

/-- One match attempt of the whole pattern at the current position:
the three captured groups (index digits, time range, lazy text) and the
rest of the input after the match (the lookahead is zero-width).  Since
the lazy stage always succeeds, the first combination of earlier-stage
candidates that reaches it wins. -/
def matchBlockAt (l : Str) : Option ((Str × Str × Str) × Str) :=
  firstSome (fun ds =>
    firstSome (fun r2 =>
      match matchTime r2 with
      | none => none
      | some (tm, r3) =>
        firstSome (fun r4 =>
          some ((ds.1, tm, (lazyFind r4).1), (lazyFind r4).2))
          (wsNlSplits r3))
      (wsNlSplits ds.2))
    (digitSplits l)

/-- The re.findall scan: try a match at each position from left to right;
on success, emit the groups (text stripped, as the source's loop does)
and resume after the match.  Fuel bounds the number of scan steps; every
step either advances one position or consumes a whole match (at least 32
characters), so fuel = input length always suffices. -/
def parseGo : Nat → Str → List SrtRec
  | 0, _ => []
  | fuel + 1, l =>
    match l with
    | [] => []
    | _ :: rest =>
      match matchBlockAt l with
      | some ((idx, tm, tx), after) => ⟨idx, tm, pyStrip tx⟩ :: parseGo fuel after
      | none => parseGo fuel rest

/-- Embedding of parse_srt (src/app.py lines 18-29). -/
def parse_srt (content : Str) : List SrtRec := parseGo content.length content

/-- Python newline.join. -/
def joinNl : List Str → Str
  | [] => []
  | [b] => b
  | b :: bs => b ++ '\n' :: joinNl bs

/-- Embedding of rebuild_srt (src/app.py lines 217-226): flatten the
per-chunk translations, pair them with the original records up to the
shorter length (List.zip truncates exactly like the range(limit) loop
over min of the lengths), format each block as index, newline, time,
newline, text, newline, and join the blocks with a newline. -/
def rebuild_srt (originalData : List SrtRec) (chunksTranslated : List (List Str)) : Str :=
  joinNl ((originalData.zip chunksTranslated.flatten).map
    (fun p => p.1.index ++ '\n' :: p.1.time ++ '\n' :: (p.2 ++ ['\n'])))


/-- Shape of the 12-character timestamp dd:dd:dd,ddd. -/
def tsOk (l : Str) : Bool :=
  match l with
  | [d1, d2, c1, d3, d4, c2, d5, d6, c3, d7, d8, d9] =>
    d1.isDigit && d2.isDigit && (c1 == ':') && d3.isDigit && d4.isDigit &&
      (c2 == ':') && d5.isDigit && d6.isDigit && (c3 == ',') && d7.isDigit &&
      d8.isDigit && d9.isDigit
  | _ => false

/-- Shape of a canonical time-range line: timestamp, the five characters
space dash dash greater space, timestamp. -/
def timeOk (l : Str) : Bool :=
  tsOk (l.take 12) && ((l.drop 12).take 5 == ' ' :: '-' :: '-' :: '>' :: [' ']) &&
    tsOk (l.drop 17)

/-- No character directly following a newline is a decimal digit. -/
def noDigitAfterNl : Str → Bool
  | [] => true
  | [_] => true
  | c :: d :: rest =>
    (if c = '\n' then !d.isDigit else true) && noDigitAfterNl (d :: rest)

/-- A well-formed subtitle text body: nonempty, pre-trimmed (no leading or
trailing whitespace), and no line after the first starts with a digit (a
digit there could satisfy the next-index lookahead and truncate the
block). -/
def textOk (t : Str) : Bool :=
  !t.isEmpty &&
    (match t.head? with | some c => !pySpace c | none => false) &&
    (match t.getLast? with | some c => !pySpace c | none => false) &&
    noDigitAfterNl t

/-- A well-formed index line content: one or more decimal digits. -/
def indexOk (l : Str) : Bool := !l.isEmpty && l.all Char.isDigit

/-- A well-formed subtitle record, ready to render as a block. -/
def wfRec (r : SrtRec) : Bool := indexOk r.index && timeOk r.time && textOk r.text

/-- One rendered block: index line, time line, text. -/
def renderBlock (r : SrtRec) : Str := r.index ++ '\n' :: r.time ++ '\n' :: r.text

/-- A well-formed subtitle file: blocks separated by one blank line. -/
def renderAll : List SrtRec → Str
  | [] => []
  | [r] => renderBlock r
  | r :: rs => renderBlock r ++ '\n' :: '\n' :: renderAll rs

/-- The lines of a text, split at every newline. -/
def splitNl : Str → List Str
  | [] => [[]]
  | '\n' :: rest => [] :: splitNl rest
  | c :: rest =>
    match splitNl rest with
    | [] => [[c]]
    | l :: ls => (c :: l) :: ls

lemma digit_not_space {c : Char} (h : c.isDigit = true) : pySpace c = false := by
  unfold pySpace
  by_contra hs
  simp only [Bool.not_eq_false, Bool.or_eq_true, decide_eq_true_eq] at hs
  rcases hs with ((((h1 | h1) | h1) | h1) | h1) | h1 <;> subst h1 <;> simp [Char.isDigit] at h

lemma digit_ne_nl {c : Char} (h : c.isDigit = true) : c ≠ '\n' := by
  intro he
  subst he
  simp [Char.isDigit] at h

lemma takeWhile_all_append {p : Char → Bool} {xs : Str} (h : ∀ c ∈ xs, p c = true)
    (ys : Str) : (xs ++ ys).takeWhile p = xs ++ ys.takeWhile p := by
  induction xs with
  | nil => simp
  | cons a as ih =>
    have ha : p a = true := h a (List.mem_cons_self a as)
    simp only [List.cons_append, List.takeWhile_cons, ha, if_true]
    rw [ih (fun c hc => h c (List.mem_cons_of_mem a hc))]

lemma dropWhile_all_append {p : Char → Bool} {xs : Str} (h : ∀ c ∈ xs, p c = true)
    (ys : Str) : (xs ++ ys).dropWhile p = ys.dropWhile p := by
  induction xs with
  | nil => simp
  | cons a as ih =>
    have ha : p a = true := h a (List.mem_cons_self a as)
    simp only [List.cons_append, List.dropWhile_cons, ha, if_true]
    exact ih (fun c hc => h c (List.mem_cons_of_mem a hc))

lemma takeWhile_cons_neg {p : Char → Bool} {y : Char} (h : p y = false) (rest : Str) :
    (y :: rest).takeWhile p = [] := by
  simp [List.takeWhile_cons, h]

lemma dropWhile_cons_neg {p : Char → Bool} {y : Char} (h : p y = false) (rest : Str) :
    (y :: rest).dropWhile p = y :: rest := by
  simp [List.dropWhile_cons, h]

lemma tsOk_length {ts : Str} (h : tsOk ts = true) : ts.length = 12 := by
  unfold tsOk at h
  split at h
  · simp_all
  · simp at h

lemma tsOk_head_digit {ts : Str} (h : tsOk ts = true) :
    ∃ d t', ts = d :: t' ∧ d.isDigit = true := by
  unfold tsOk at h
  split at h
  · rename_i d1 d2 c1 d3 d4 c2 d5 d6 c3 d7 d8 d9
    simp only [Bool.and_eq_true] at h
    exact ⟨d1, _, rfl, h.1.1.1.1.1.1.1.1.1.1.1⟩
  · simp at h

lemma matchTimestamp_consume {ts rest : Str} (h : tsOk ts = true) :
    matchTimestamp (ts ++ rest) = some (ts, rest) := by
  unfold tsOk at h
  split at h
  · rename_i d1 d2 c1 d3 d4 c2 d5 d6 c3 d7 d8 d9
    simp only [List.cons_append, List.nil_append, matchTimestamp]
    rw [if_pos h]
  · simp at h

lemma nl_space : pySpace '\n' = true := rfl

lemma timeOk_decomp {l : Str} (h : timeOk l = true) :
    ∃ ts1 ts2, tsOk ts1 = true ∧ tsOk ts2 = true ∧
      l = ts1 ++ ' ' :: '-' :: '-' :: '>' :: ' ' :: ts2 := by
  unfold timeOk at h
  simp only [Bool.and_eq_true] at h
  obtain ⟨⟨h1, h2⟩, h3⟩ := h
  refine ⟨l.take 12, l.drop 17, h1, h3, ?_⟩
  have hsep : (l.drop 12).take 5 = ' ' :: '-' :: '-' :: '>' :: [' '] := eq_of_beq h2
  have hd : (l.drop 12).drop 5 = l.drop 17 := by rw [List.drop_drop]
  have key : l.drop 12 = ' ' :: '-' :: '-' :: '>' :: ' ' :: ((l.drop 12).drop 5) := by
    have hx : l.drop 12 = (l.drop 12).take 5 ++ (l.drop 12).drop 5 :=
      (List.take_append_drop 5 (l.drop 12)).symm
    rw [hsep] at hx
    exact hx
  conv_lhs => rw [← List.take_append_drop 12 l]
  rw [key, hd]

lemma timeOk_head_digit {l : Str} (h : timeOk l = true) :
    ∃ d t', l = d :: t' ∧ d.isDigit = true := by
  obtain ⟨ts1, ts2, h1, _, heq⟩ := timeOk_decomp h
  obtain ⟨d, t', hts, hd⟩ := tsOk_head_digit h1
  exact ⟨d, t' ++ ' ' :: '-' :: '-' :: '>' :: ' ' :: ts2, by rw [heq, hts]; rfl, hd⟩

lemma matchTime_consume {tm rest : Str} (h : timeOk tm = true) :
    matchTime (tm ++ rest) = some (tm, rest) := by
  obtain ⟨ts1, ts2, h1, h2, heq⟩ := timeOk_decomp h
  obtain ⟨d2, t2', hts2, hd2⟩ := tsOk_head_digit h2
  have hns2 : pySpace d2 = false := digit_not_space hd2
  subst heq
  have hassoc : (ts1 ++ ' ' :: '-' :: '-' :: '>' :: ' ' :: ts2) ++ rest =
      ts1 ++ (' ' :: '-' :: '-' :: '>' :: ' ' :: (ts2 ++ rest)) := by
    simp
  rw [hassoc]
  have hdw : (' ' :: '-' :: '-' :: '>' :: ' ' :: (ts2 ++ rest)).dropWhile pySpace =
      '-' :: '-' :: '>' :: (' ' :: (ts2 ++ rest)) := by
    rw [List.dropWhile_cons]
    simp only [show pySpace ' ' = true from rfl, if_true]
    exact dropWhile_cons_neg (show pySpace '-' = false from rfl) _
  have htw : (' ' :: '-' :: '-' :: '>' :: ' ' :: (ts2 ++ rest)).takeWhile pySpace =
      [' '] := by
    rw [List.takeWhile_cons]
    simp only [show pySpace ' ' = true from rfl, if_true]
    rw [takeWhile_cons_neg (show pySpace '-' = false from rfl)]
  have hdw2 : (' ' :: (ts2 ++ rest)).dropWhile pySpace = ts2 ++ rest := by
    rw [List.dropWhile_cons]
    simp only [show pySpace ' ' = true from rfl, if_true]
    rw [hts2, List.cons_append]
    exact dropWhile_cons_neg hns2 _
  have htw2 : (' ' :: (ts2 ++ rest)).takeWhile pySpace = [' '] := by
    rw [List.takeWhile_cons]
    simp only [show pySpace ' ' = true from rfl, if_true]
    rw [hts2, List.cons_append, takeWhile_cons_neg hns2]
  simp only [matchTime, matchTimestamp_consume h1, hdw, hdw2, matchTimestamp_consume h2,
    htw, htw2]
  simp

lemma wsNlSplits_nl {rest : Str} (h : ∀ c, rest.head? = some c → pySpace c = false) :
    wsNlSplits ('\n' :: rest) = [rest] := by
  cases rest with
  | nil => decide
  | cons c r' =>
    have hc : pySpace c = false := h c rfl
    have hcn : c ≠ '\n' := by
      intro he
      rw [he] at hc
      simp [pySpace] at hc
    have hrun : ('\n' :: c :: r').takeWhile pySpace = ['\n'] := by
      rw [List.takeWhile_cons]
      simp only [nl_space, if_true]
      rw [takeWhile_cons_neg hc]
    unfold wsNlSplits
    rw [hrun]
    have hrange : (List.range ((['\n'] : Str).length + 1)).reverse = [1, 0] := by decide
    rw [hrange]
    simp [List.filterMap_cons, hcn]

lemma firstSome_cons_some {α β : Type} {f : α → Option β} {a : α} {b : β}
    (h : f a = some b) (as : List α) : firstSome f (a :: as) = some b := by
  simp [firstSome, h]

lemma digitSplits_cons {idx : Str} (rest : Str) (hidx : indexOk idx = true) :
    ∃ tl, digitSplits (idx ++ '\n' :: rest) = (idx, '\n' :: rest) :: tl := by
  simp only [indexOk, Bool.and_eq_true] at hidx
  obtain ⟨hne, hall⟩ := hidx
  have hall' : ∀ c ∈ idx, Char.isDigit c = true := List.all_eq_true.mp hall
  have htw : (idx ++ '\n' :: rest).takeWhile Char.isDigit = idx := by
    rw [takeWhile_all_append hall',
      takeWhile_cons_neg (show Char.isDigit '\n' = false from rfl), List.append_nil]
  cases idx with
  | nil => simp at hne
  | cons d idx' =>
    unfold digitSplits
    rw [htw]
    have hlen : (d :: idx').length = idx'.length + 1 := rfl
    rw [hlen]
    have hrev : (List.range (idx'.length + 1)).reverse =
        idx'.length :: (List.range idx'.length).reverse := by
      rw [List.range_succ, List.reverse_append]
      rfl
    rw [hrev]
    simp only [List.map_cons]
    have hhead : ((d :: idx') ++ '\n' :: rest).take (idx'.length + 1) = d :: idx' :=
      List.take_left' rfl
    have hhead2 : ((d :: idx') ++ '\n' :: rest).drop (idx'.length + 1) = '\n' :: rest :=
      List.drop_left' rfl
    exact ⟨_, by rw [hhead, hhead2]⟩

lemma lookaheadOk_not_nl {c : Char} {rest : Str} (h : c ≠ '\n') :
    lookaheadOk (c :: rest) = false := by
  simp [lookaheadOk, h]

lemma lookaheadOk_nl_nil : lookaheadOk ['\n'] = false := by decide

lemma lookaheadOk_nl_nondigit {d : Char} {rest : Str} (h : d.isDigit = false) :
    lookaheadOk ('\n' :: d :: rest) = false := by
  simp [lookaheadOk, takeWhile_cons_neg h]

lemma lookaheadOk_boundary {idx : Str} (rest : Str) (hidx : indexOk idx = true) :
    lookaheadOk ('\n' :: (idx ++ '\n' :: rest)) = true := by
  simp only [indexOk, Bool.and_eq_true] at hidx
  obtain ⟨hne, hall⟩ := hidx
  have hall' : ∀ c ∈ idx, Char.isDigit c = true := List.all_eq_true.mp hall
  have htw : (idx ++ '\n' :: rest).takeWhile Char.isDigit = idx := by
    rw [takeWhile_all_append hall',
      takeWhile_cons_neg (show Char.isDigit '\n' = false from rfl), List.append_nil]
  have hdr : (idx ++ '\n' :: rest).drop idx.length = '\n' :: rest :=
    List.drop_left' rfl
  have hemp : idx.isEmpty = false := by simpa using hne
  simp only [lookaheadOk, if_pos rfl, htw, hdr, hemp, Bool.not_false, Bool.true_and]
  rw [List.takeWhile_cons]
  simp [nl_space]

lemma noDigitAfterNl_tail {c : Char} {t : Str} (h : noDigitAfterNl (c :: t) = true) :
    noDigitAfterNl t = true := by
  cases t with
  | nil => rfl
  | cons d rest =>
    have heq : noDigitAfterNl (c :: d :: rest) =
        ((if c = '\n' then !d.isDigit else true) && noDigitAfterNl (d :: rest)) := rfl
    rw [heq, Bool.and_eq_true] at h
    exact h.2

lemma noFireAux :
    ∀ (t : Str), noDigitAfterNl t = true →
      (∀ c, t.getLast? = some c → pySpace c = false) →
      ∀ i, i < t.length → ∀ S, lookaheadOk (t.drop i ++ S) = false := by
  intro t
  induction t with
  | nil =>
    intro _ _ i hi
    simp at hi
  | cons c t' ih =>
    intro h hlast i hi S
    cases i with
    | zero =>
      simp only [List.drop_zero, List.cons_append]
      by_cases hc : c = '\n'
      · subst hc
        cases t' with
        | nil => exact absurd (hlast '\n' rfl) (by simp [nl_space])
        | cons d t'' =>
          have heq : noDigitAfterNl ('\n' :: d :: t'') =
              ((if ('\n' : Char) = '\n' then !d.isDigit else true) &&
                noDigitAfterNl (d :: t'')) := rfl
          rw [heq, Bool.and_eq_true, if_pos rfl] at h
          have hd : d.isDigit = false := by
            have := h.1
            simpa using this
          simpa using @lookaheadOk_nl_nondigit d (t'' ++ S) hd
      · exact lookaheadOk_not_nl hc
    | succ i =>
      cases t' with
      | nil => simp at hi
      | cons d t'' =>
        have hi' : i < (d :: t'').length := by simpa using hi
        have hlast' : ∀ e, (d :: t'').getLast? = some e → pySpace e = false := by
          intro e he
          exact hlast e (by rw [List.getLast?_cons_cons]; exact he)
        exact ih (noDigitAfterNl_tail h) hlast' i hi' S

lemma lazyFind_split :
    ∀ (T S : Str), (∀ i, i < T.length → lookaheadOk (T.drop i ++ S) = false) →
      lookaheadOk S = true → lazyFind (T ++ S) = (T, S) := by
  intro T
  induction T with
  | nil =>
    intro S _ hS
    cases S with
    | nil => rfl
    | cons c rest => simp [lazyFind, hS]
  | cons a T' ih =>
    intro S hfire hS
    have h0 : lookaheadOk (a :: (T' ++ S)) = false := by
      simpa using hfire 0 (by simp)
    have hrest : lazyFind (T' ++ S) = (T', S) :=
      ih S (fun i hi => by simpa using hfire (i + 1) (by simpa using Nat.succ_lt_succ hi)) hS
    simp [lazyFind, h0, hrest]

lemma textOk_parts {t : Str} (h : textOk t = true) :
    t ≠ [] ∧ (∀ c, t.head? = some c → pySpace c = false) ∧
      (∀ c, t.getLast? = some c → pySpace c = false) ∧ noDigitAfterNl t = true := by
  simp only [textOk, Bool.and_eq_true] at h
  obtain ⟨⟨⟨h1, h2⟩, h3⟩, h4⟩ := h
  refine ⟨by simpa [List.isEmpty_iff] using h1, ?_, ?_, h4⟩
  · intro c hc
    rw [hc] at h2
    simpa using h2
  · intro c hc
    rw [hc] at h3
    simpa using h3

lemma lazyFind_textA {t : Str} (h : textOk t = true) : lazyFind t = (t, []) := by
  obtain ⟨_, _, hlast, hnd⟩ := textOk_parts h
  have := lazyFind_split t []
    (fun i hi => by simpa using noFireAux t hnd hlast i hi []) rfl
  simpa using this

lemma lazyFind_textB {t : Str} (h : textOk t = true) :
    lazyFind (t ++ ['\n']) = (t ++ ['\n'], []) := by
  obtain ⟨_, _, hlast, hnd⟩ := textOk_parts h
  have hfire : ∀ i, i < (t ++ ['\n']).length →
      lookaheadOk ((t ++ ['\n']).drop i ++ []) = false := by
    intro i hi
    rcases Nat.lt_or_ge i t.length with hlt | hge
    · rw [List.drop_append_of_le_length (Nat.le_of_lt hlt), List.append_nil]
      exact noFireAux t hnd hlast i hlt ['\n']
    · have hieq : i = t.length := by
        have : i < t.length + 1 := by simpa using hi
        omega
      subst hieq
      rw [List.drop_left' rfl, List.append_nil]
      exact lookaheadOk_nl_nil
  have := lazyFind_split (t ++ ['\n']) [] hfire rfl
  simpa using this

lemma lazyFind_textC {t idx2 : Str} (rest2 : Str) (ht : textOk t = true)
    (hidx : indexOk idx2 = true) :
    lazyFind (t ++ '\n' :: '\n' :: (idx2 ++ '\n' :: rest2)) =
      (t ++ ['\n'], '\n' :: (idx2 ++ '\n' :: rest2)) := by
  obtain ⟨_, _, hlast, hnd⟩ := textOk_parts ht
  have hassoc : t ++ '\n' :: '\n' :: (idx2 ++ '\n' :: rest2) =
      (t ++ ['\n']) ++ ('\n' :: (idx2 ++ '\n' :: rest2)) := by simp
  rw [hassoc]
  have hfire : ∀ i, i < (t ++ ['\n']).length →
      lookaheadOk ((t ++ ['\n']).drop i ++ '\n' :: (idx2 ++ '\n' :: rest2)) = false := by
    intro i hi
    rcases Nat.lt_or_ge i t.length with hlt | hge
    · rw [List.drop_append_of_le_length (Nat.le_of_lt hlt), List.append_assoc]
      exact noFireAux t hnd hlast i hlt _
    · have hieq : i = t.length := by
        have : i < t.length + 1 := by simpa using hi
        omega
      subst hieq
      rw [List.drop_left' rfl]
      simpa using @lookaheadOk_nl_nondigit '\n' (idx2 ++ '\n' :: rest2)
        (show ('\n' : Char).isDigit = false from rfl)
  exact lazyFind_split (t ++ ['\n']) _ hfire (lookaheadOk_boundary rest2 hidx)

lemma pyStrip_textOk {t : Str} (h : textOk t = true) : pyStrip t = t := by
  obtain ⟨_, hhead, hlast, _⟩ := textOk_parts h
  exact pyStrip_no_edge_space t hhead hlast

lemma pyStrip_textOk_nl {t : Str} (h : textOk t = true) : pyStrip (t ++ ['\n']) = t := by
  obtain ⟨hne, hhead, hlast, _⟩ := textOk_parts h
  unfold pyStrip
  have h1 : (t ++ ['\n']).dropWhile pySpace = t ++ ['\n'] := by
    cases t with
    | nil => exact absurd rfl hne
    | cons a as =>
      rw [List.cons_append]
      exact dropWhile_cons_neg (hhead a rfl) _
  rw [h1, List.reverse_append]
  have h2 : (['\n'].reverse ++ t.reverse).dropWhile pySpace = t.reverse := by
    simp only [List.reverse_cons, List.reverse_nil, List.nil_append, List.singleton_append,
      List.dropWhile_cons, nl_space, if_true]
    cases hr : t.reverse with
    | nil =>
      have : t = [] := by simpa using congrArg List.reverse hr
      exact absurd this hne
    | cons b bs =>
      have hb : t.getLast? = some b := by rw [← List.head?_reverse, hr]; rfl
      exact dropWhile_cons_neg (hlast b hb) bs
  rw [h2, List.reverse_reverse]

lemma matchBlockAt_render {r : SrtRec} (hwf : wfRec r = true) {K grp after : Str}
    (hlz : lazyFind (r.text ++ K) = (grp, after)) :
    matchBlockAt (renderBlock r ++ K) = some ((r.index, r.time, grp), after) := by
  simp only [wfRec, Bool.and_eq_true] at hwf
  obtain ⟨⟨hidx, htime⟩, htext⟩ := hwf
  have hshape : renderBlock r ++ K =
      r.index ++ '\n' :: (r.time ++ '\n' :: (r.text ++ K)) := by
    simp [renderBlock]
  rw [hshape]
  unfold matchBlockAt
  obtain ⟨tl, hds⟩ := digitSplits_cons (r.time ++ '\n' :: (r.text ++ K)) hidx
  rw [hds]
  apply firstSome_cons_some
  have hhead_time : ∀ c, (r.time ++ '\n' :: (r.text ++ K)).head? = some c →
      pySpace c = false := by
    obtain ⟨d, t', heq, hdig⟩ := timeOk_head_digit htime
    intro c hc
    rw [heq, List.cons_append] at hc
    simp only [List.head?_cons, Option.some.injEq] at hc
    rw [← hc]
    exact digit_not_space hdig
  show firstSome _ (wsNlSplits ('\n' :: (r.time ++ '\n' :: (r.text ++ K)))) = _
  rw [wsNlSplits_nl hhead_time]
  apply firstSome_cons_some
  have hhead_text : ∀ c, (r.text ++ K).head? = some c → pySpace c = false := by
    obtain ⟨hne, hhead, _, _⟩ := textOk_parts htext
    intro c hc
    cases ht : r.text with
    | nil => exact absurd ht hne
    | cons a as =>
      rw [ht, List.cons_append] at hc
      simp only [List.head?_cons, Option.some.injEq] at hc
      rw [← hc]
      exact hhead a (by rw [ht]; rfl)
  show (match matchTime (r.time ++ '\n' :: (r.text ++ K)) with
    | none => none
    | some (tm, r3) => firstSome _ (wsNlSplits r3)) = _
  rw [matchTime_consume htime]
  show firstSome _ (wsNlSplits ('\n' :: (r.text ++ K))) = _
  rw [wsNlSplits_nl hhead_text]
  apply firstSome_cons_some
  show some ((r.index, r.time, (lazyFind (r.text ++ K)).1),
    (lazyFind (r.text ++ K)).2) = _
  rw [hlz]

lemma matchBlockAt_nl_none (x : Str) : matchBlockAt ('\n' :: x) = none := by
  unfold matchBlockAt
  have hds : digitSplits ('\n' :: x) = [] := by
    unfold digitSplits
    rw [takeWhile_cons_neg (show Char.isDigit '\n' = false from rfl)]
    rfl
  rw [hds]
  rfl

lemma parseGo_nil : ∀ fuel, parseGo fuel [] = [] := by
  intro fuel
  cases fuel <;> rfl

lemma parseGo_cons_match {l : Str} (hne : l ≠ []) {g : Str × Str × Str} {after : Str}
    (hm : matchBlockAt l = some (g, after)) (fuel : Nat) :
    parseGo (fuel + 1) l = ⟨g.1, g.2.1, pyStrip g.2.2⟩ :: parseGo fuel after := by
  cases l with
  | nil => exact absurd rfl hne
  | cons c rest => simp [parseGo, hm]

lemma parseGo_cons_nomatch {c : Char} {rest : Str}
    (hm : matchBlockAt (c :: rest) = none) (fuel : Nat) :
    parseGo (fuel + 1) (c :: rest) = parseGo fuel rest := by
  simp [parseGo, hm]

lemma renderBlock_length_pos (r : SrtRec) : 0 < (renderBlock r).length := by
  simp [renderBlock]

lemma renderBlock_ne_nil (r : SrtRec) : renderBlock r ≠ [] := by
  intro h
  have := renderBlock_length_pos r
  rw [h] at this
  simp at this

lemma renderAll_cons_shape (r2 : SrtRec) (bs'' : List SrtRec) (tail : Str) :
    ∃ Z, renderAll (r2 :: bs'') ++ tail = r2.index ++ '\n' :: Z := by
  cases bs'' with
  | nil => exact ⟨r2.time ++ '\n' :: (r2.text ++ tail), by simp [renderAll, renderBlock]⟩
  | cons r3 bs''' =>
    exact ⟨r2.time ++ '\n' :: (r2.text ++ ('\n' :: '\n' :: renderAll (r3 :: bs''') ++ tail)),
      by simp [renderAll, renderBlock]⟩

lemma parseGo_render :
    ∀ (bs : List SrtRec), (∀ r ∈ bs, wfRec r = true) →
      ∀ (tail : Str), tail = [] ∨ tail = ['\n'] →
      ∀ fuel, (renderAll bs ++ tail).length ≤ fuel →
      parseGo fuel (renderAll bs ++ tail) = bs := by
  intro bs
  induction bs with
  | nil =>
    intro _ tail htail fuel hfuel
    rcases htail with h | h <;> subst h
    · simp only [renderAll, List.nil_append]
      exact parseGo_nil fuel
    · simp only [renderAll, List.nil_append] at hfuel ⊢
      cases fuel with
      | zero => simp at hfuel
      | succ f =>
        rw [parseGo_cons_nomatch (matchBlockAt_nl_none []) f]
        exact parseGo_nil f
  | cons r bs' ih =>
    intro hwf tail htail fuel hfuel
    have hwfr : wfRec r = true := hwf r (List.mem_cons_self r bs')
    have htext : textOk r.text = true := by
      simp only [wfRec, Bool.and_eq_true] at hwfr
      exact hwfr.2
    have hwfr' : wfRec r = true := hwf r (List.mem_cons_self r bs')
    cases bs' with
    | nil =>
      rcases htail with h | h <;> subst h
      · simp only [renderAll, List.append_nil] at hfuel ⊢
        cases fuel with
        | zero =>
          exfalso
          have := renderBlock_length_pos r
          omega
        | succ f =>
          have hlz : lazyFind (r.text ++ []) = (r.text, []) := by
            rw [List.append_nil]
            exact lazyFind_textA htext
          have hm : matchBlockAt (renderBlock r) = some ((r.index, r.time, r.text), []) := by
            have := matchBlockAt_render hwfr' hlz
            rwa [List.append_nil] at this
          rw [parseGo_cons_match (renderBlock_ne_nil r) hm f, parseGo_nil f]
          simp [pyStrip_textOk htext]
      · simp only [renderAll] at hfuel ⊢
        cases fuel with
        | zero =>
          exfalso
          have := renderBlock_length_pos r
          simp only [List.length_append] at hfuel
          omega
        | succ f =>
          have hlz : lazyFind (r.text ++ ['\n']) = (r.text ++ ['\n'], []) :=
            lazyFind_textB htext
          have hm := matchBlockAt_render hwfr' (K := ['\n']) hlz
          have hne : renderBlock r ++ ['\n'] ≠ [] := by
            intro hemp
            exact renderBlock_ne_nil r (List.append_eq_nil.mp hemp).1
          rw [parseGo_cons_match hne hm f, parseGo_nil f]
          simp [pyStrip_textOk_nl htext]
    | cons r2 bs'' =>
      obtain ⟨Z, hZ⟩ := renderAll_cons_shape r2 bs'' tail
      have hidx2 : indexOk r2.index = true := by
        have h2 := hwf r2 (by simp)
        simp only [wfRec, Bool.and_eq_true] at h2
        exact h2.1.1
      have hS : renderAll (r :: r2 :: bs'') ++ tail =
          renderBlock r ++ ('\n' :: '\n' :: (renderAll (r2 :: bs'') ++ tail)) := by
        simp [renderAll]
      rw [hS] at hfuel ⊢
      rw [hZ] at hfuel ⊢
      have hlz := lazyFind_textC Z htext hidx2
      have hm := matchBlockAt_render hwfr'
        (K := '\n' :: '\n' :: (r2.index ++ '\n' :: Z)) hlz
      have hne : renderBlock r ++ ('\n' :: '\n' :: (r2.index ++ '\n' :: Z)) ≠ [] := by
        intro hemp
        exact renderBlock_ne_nil r (List.append_eq_nil.mp hemp).1
      have hrb := renderBlock_length_pos r
      cases fuel with
      | zero =>
        exfalso
        simp only [List.length_append, List.length_cons] at hfuel
        omega
      | succ f =>
        rw [parseGo_cons_match hne hm f]
        simp only [pyStrip_textOk_nl htext]
        congr 1
        cases f with
        | zero =>
          exfalso
          simp only [List.length_append, List.length_cons] at hfuel
          omega
        | succ f' =>
          rw [parseGo_cons_nomatch (matchBlockAt_nl_none _) f', ← hZ]
          refine ih (fun r' hr' => hwf r' (List.mem_cons_of_mem r hr')) tail htail f' ?_
          have hlenZ : (renderAll (r2 :: bs'') ++ tail).length =
              (r2.index ++ '\n' :: Z).length := congrArg List.length hZ
          simp only [List.length_append, List.length_cons] at hfuel hlenZ ⊢
          omega

lemma zip_map_self (bs : List SrtRec) :
    bs.zip (bs.map (fun r => r.text)) = bs.map (fun r => (r, r.text)) := by
  induction bs with
  | nil => rfl
  | cons r rest ih => simp [ih]

lemma joinNl_blocks :
    ∀ (bs : List SrtRec), bs ≠ [] →
      joinNl (bs.map (fun r => r.index ++ '\n' :: r.time ++ '\n' :: (r.text ++ ['\n']))) =
        renderAll bs ++ ['\n'] := by
  intro bs
  induction bs with
  | nil => intro h; exact absurd rfl h
  | cons r bs' ih =>
    intro _
    cases bs' with
    | nil => simp [joinNl, renderAll, renderBlock]
    | cons r2 rest =>
      have hj : joinNl ((r :: r2 :: rest).map
            (fun r => r.index ++ '\n' :: r.time ++ '\n' :: (r.text ++ ['\n']))) =
          (r.index ++ '\n' :: r.time ++ '\n' :: (r.text ++ ['\n'])) ++
            '\n' :: joinNl ((r2 :: rest).map
              (fun r => r.index ++ '\n' :: r.time ++ '\n' :: (r.text ++ ['\n']))) := rfl
      rw [hj, ih (by simp)]
      simp [renderAll, renderBlock]

lemma rebuild_render (bs : List SrtRec) (hne : bs ≠ []) :
    rebuild_srt bs [bs.map (fun r => r.text)] = renderAll bs ++ ['\n'] := by
  unfold rebuild_srt
  have hfl : ([bs.map (fun r => r.text)] : List (List Str)).flatten =
      bs.map (fun r => r.text) := by simp
  rw [hfl, zip_map_self, List.map_map]
  exact joinNl_blocks bs hne

/-- Claim C9: for a well-formed subtitle text (blocks of a digits-only
index line, a canonical time-range line, and nonempty pre-trimmed text
whose lines after the first do not begin with a digit, separated by blank
lines), parse yields exactly the N source records in order; rebuilding
from those records with their own texts reproduces the source text
verbatim (with the canonical trailing newline), so indices, time ranges
and text content are preserved exactly, and re-parsing the rebuilt text
yields the same records again. -/
theorem parse_rebuild_round_trip (bs : List SrtRec) (hwf : ∀ r ∈ bs, wfRec r = true)
    (hne : bs ≠ []) :
    parse_srt (renderAll bs) = bs ∧
    rebuild_srt (parse_srt (renderAll bs))
        [(parse_srt (renderAll bs)).map (fun r => r.text)] = renderAll bs ++ ['\n'] ∧
    parse_srt (rebuild_srt (parse_srt (renderAll bs))
        [(parse_srt (renderAll bs)).map (fun r => r.text)]) = bs := by
  have hp : parse_srt (renderAll bs) = bs := by
    unfold parse_srt
    have h := parseGo_render bs hwf [] (Or.inl rfl) (renderAll bs ++ []).length (le_refl _)
    simpa using h
  refine ⟨hp, ?_, ?_⟩
  · rw [hp]
    exact rebuild_render bs hne
  · rw [hp, rebuild_render bs hne]
    unfold parse_srt
    exact parseGo_render bs hwf ['\n'] (Or.inr rfl) _ (le_refl _)

/-- The two demonstration blocks used by the round-trip witness. -/
def demoBlocks : List SrtRec :=
  [⟨['1'], "00:00:01,000 --> 00:00:02,500".toList, "Hello there".toList⟩,
   ⟨['2'], "00:00:03,000 --> 00:00:04,000".toList, "General Kenobi!\nYou are bold.".toList⟩]

/-- Claim C9, witness: the round trip on a concrete two-block file with a
multi-line text. -/
theorem parse_rebuild_round_trip_witness :
    (∀ r ∈ demoBlocks, wfRec r = true) ∧ demoBlocks ≠ [] ∧
    parse_srt (renderAll demoBlocks) = demoBlocks ∧
    parse_srt (rebuild_srt (parse_srt (renderAll demoBlocks))
        [(parse_srt (renderAll demoBlocks)).map (fun r => r.text)]) = demoBlocks := by
  have h := parse_rebuild_round_trip demoBlocks (by decide) (by decide)
  exact ⟨by decide, by decide, h.1, h.2.2⟩

/-- Claim C8, counterexample: the index match of the pattern may begin in
the middle of a line.  On an input whose first line is x1 (not a line
holding only an integer; indeed no line of this input holds only an
integer), parse_srt still produces a record with index 1, because the
digits-plus atom needs no line anchor and the scan starts a match at the
digit 1 inside the first line.  Under the claim, an input with no
correctly-shaped block would yield no records. -/
theorem parse_srt_midline_counterexample :
    parse_srt "x1\n00:00:00,000 --> 00:00:01,000\nhello".toList =
      [⟨['1'], "00:00:00,000 --> 00:00:01,000".toList, "hello".toList⟩] ∧
    (∀ ln ∈ splitNl "x1\n00:00:00,000 --> 00:00:01,000\nhello".toList,
      ¬(ln ≠ [] ∧ ln.all Char.isDigit = true)) := by
  constructor
  · decide
  · decide

/-- Claim C8 as amended: for any input assembled from well-formed blocks
(an index line holding only a non-negative integer, a time-range line
HH:MM:SS,mmm --> HH:MM:SS,mmm, then one or more lines of nonempty
pre-trimmed text none of whose lines after the first begins with a digit,
blocks separated by blank lines), parse produces exactly one record per
block, in order, and each record's text is the block's text trimmed of
leading and trailing whitespace (the second conjunct demonstrates the
trimming on surrounding spaces).  However, the index match may begin
mid-line and text lines beginning with digits can terminate a block
early, so arbitrary non-matching content is not always skipped along
block boundaries; the claim's exactly-these-blocks characterisation fails
in general (see the counterexample). -/
theorem parse_srt_wellformed_blocks :
    (∀ bs : List SrtRec, (∀ r ∈ bs, wfRec r = true) →
      parse_srt (renderAll bs) = bs) ∧
    parse_srt ("1\n00:00:00,000 --> 00:00:01,000\n  hi there  \n\n" ++
        "2\n00:00:01,000 --> 00:00:02,000\nbye").toList =
      [⟨['1'], "00:00:00,000 --> 00:00:01,000".toList, "hi there".toList⟩,
       ⟨['2'], "00:00:01,000 --> 00:00:02,000".toList, "bye".toList⟩] := by
  constructor
  · intro bs hwf
    unfold parse_srt
    have h := parseGo_render bs hwf [] (Or.inl rfl) (renderAll bs ++ []).length (le_refl _)
    simpa using h
  · decide

/-- Claim C8, witness: the amended theorem applied to a one-block
well-formed file. -/
theorem parse_srt_wellformed_blocks_witness :
    (∀ r ∈ ([⟨['3'], "00:01:00,000 --> 00:01:02,000".toList, "ok then".toList⟩]
        : List SrtRec), wfRec r = true) ∧
    parse_srt (renderAll
        [⟨['3'], "00:01:00,000 --> 00:01:02,000".toList, "ok then".toList⟩]) =
      [⟨['3'], "00:01:00,000 --> 00:01:02,000".toList, "ok then".toList⟩] :=
  ⟨by decide, parse_srt_wellformed_blocks.1 _ (by decide)⟩
